import Mathlib

/-!
Verification development for the ColumnDataCollection (CDC) of the repository:
a shallow embedding in Lean 4 of `ColumnDataCollection` (append driver, combine,
scan state machine, result equality) and of the per-type copy engine
(`TemplatedColumnDataCopy`, string / list / validity copy), together with
theorems settling the frozen claims about the specification.

Conventions used throughout:
- `idx_t` is embedded as `Nat`.
- `D_ASSERT` (a debug-build assertion that raises an internal error when it
  fails) is embedded as an `Except.error` result, matching the spec's error
  model (§7: schema mismatch is "reported as an internal-error condition").
  The debug-only `Verify()` re-check of internal count invariants is embedded
  as a no-op.
- Functions of the repository that are only declared or called in the provided
  source (the `ColumnDataCollectionSegment` methods, the string heap, value
  equality) are modelled from the spec; their doc comments say so explicitly.
-/

namespace CDC

/-- `STANDARD_VECTOR_SIZE`: build-time constant bounding the row count of any
one vector / chunk.  The spec's concrete scenarios fix it to 1024. -/
def STANDARD_VECTOR_SIZE : Nat := 1024

/-- Logical types, embedded as an enumeration: only identity of types matters
for the claims (schema comparison is element-wise equality). -/
inductive LType where
  | tbool
  | tint32
  | tint64
  | tvarchar
deriving DecidableEq

/-- The count-level view of a `DataChunk` passed to `Append`: its type list and
its row count (`size()`).  Row values are embedded separately in the copy
layer, where the claims are about values. -/
structure DataChunkC where
  types : List LType
  size : Nat
deriving DecidableEq

/-- `ChunkMetaData` at count granularity is just its row `count`; a segment's
`chunk_data` is the list of those counts. -/
structure SegmentC where
  chunk_data : List Nat
  count : Nat
deriving DecidableEq

/-- `ColumnDataCollection`: schema, total row count, `finished_append` flag,
ordered segment list, and the shared allocator (embedded as an identifier,
since only sharing is observable).  The per-column copy-function tree is
determined by `types` and is not re-embedded at this layer. -/
structure CollectionC where
  types : List LType
  count : Nat
  finished_append : Bool
  segments : List SegmentC
  alloc : Nat
deriving DecidableEq

/-- `ColumnDataCollection(allocator, types)` via `Initialize`: empty collection
with the given schema sharing the given allocator. -/
def initCollection (alloc : Nat) (types : List LType) : CollectionC :=
  { types := types, count := 0, finished_append := false, segments := [], alloc := alloc }

/-- `CreateSegment()`: appends a fresh empty segment. -/
def createSegment (c : CollectionC) : CollectionC :=
  { c with segments := c.segments ++ [{ chunk_data := [], count := 0 }] }

/-- Modelled from the spec: `AllocateNewChunk()` of the segment appends an
empty chunk (only the chunk-count effect is observable at this layer). -/
def segAllocateNewChunk (s : SegmentC) : SegmentC :=
  { s with chunk_data := s.chunk_data ++ [0] }

/-- Replace the last element of a list (the effect of writing through
`vector::back()`); only applied to nonempty lists. -/
def setLastNat (l : List Nat) (x : Nat) : List Nat :=
  l.dropLast ++ [x]

/-- Replace the last segment of a list of segments. -/
def setLastSeg (l : List SegmentC) (s : SegmentC) : List SegmentC :=
  l.dropLast ++ [s]

/-- `InitializeAppend(state)`: asserts `!finished_append`; ensures a segment
exists and that the last segment has at least one chunk.  (The pin-state
caching of `InitializeChunkState` has no count-level effect.) -/
def initializeAppend (c : CollectionC) : Except String CollectionC :=
  if c.finished_append then Except.error "D_ASSERT failed: finished_append" else
  let c1 := if c.segments.isEmpty then createSegment c else c
  match c1.segments.getLast? with
  | none => Except.error "unreachable: CreateSegment left no segment"
  | some seg =>
    let seg1 := if seg.chunk_data.isEmpty then segAllocateNewChunk seg else seg
    Except.ok { c1 with segments := setLastSeg c1.segments seg1 }

/-- The `while (remaining > 0)` driver loop of `Append(state, input)` at
chunk-count granularity: each iteration computes
`append_amount = min(remaining, STANDARD_VECTOR_SIZE - chunk_data.back().count)`,
adds it to the last chunk, and allocates a new chunk in the same segment when
rows remain.  The loop is embedded with explicit fuel; the wrapper passes
`remaining + 2`, which is always sufficient (each iteration after the first
copies at least one row). -/
def appendChunksLoop : Nat → List Nat → Nat → List Nat
  | 0, chunks, _ => chunks
  | fuel + 1, chunks, remaining =>
    if remaining = 0 then chunks else
    let c := chunks.getLastD 0
    let amount := min remaining (STANDARD_VECTOR_SIZE - c)
    let chunks1 := if 0 < amount then setLastNat chunks (c + amount) else chunks
    let remaining1 := remaining - amount
    if 0 < remaining1 then appendChunksLoop fuel (chunks1 ++ [0]) remaining1 else chunks1

/-- The body of `Append(state, input)` after its assertions: run the driver
loop on the last segment's chunks, then increment the segment's and the
collection's `count` by exactly `input.size()`. -/
def appendCore (c : CollectionC) (seg : SegmentC) (n : Nat) : CollectionC :=
  let seg1 := { seg with chunk_data := appendChunksLoop (n + 2) seg.chunk_data n,
                         count := seg.count + n }
  { c with segments := setLastSeg c.segments seg1, count := c.count + n }

/-- `Append(state, input)`: asserts `!finished_append` and
`types == input.GetTypes()`, then appends through `segments.back()` (which the
append state guarantees to exist; its absence is undefined behaviour in the
source and is embedded as an error). -/
def appendStateE (c : CollectionC) (input : DataChunkC) : Except String CollectionC :=
  if c.finished_append then Except.error "D_ASSERT failed: finished_append" else
  if c.types ≠ input.types then Except.error "D_ASSERT failed: types == input.GetTypes()" else
  match c.segments.getLast? with
  | none => Except.error "undefined behaviour: segments.back() on empty segment list"
  | some seg =>
    if seg.chunk_data.isEmpty then
      Except.error "undefined behaviour: chunk_data.back() on empty chunk list"
    else
      Except.ok (appendCore c seg input.size)

/-- The convenience `Append(input)`: `InitializeAppend` followed by
`Append(state, input)`. -/
def appendE (c : CollectionC) (input : DataChunkC) : Except String CollectionC := do
  let c1 ← initializeAppend c
  appendStateE c1 input

/-- A moved-from segment: `Combine` moves the `unique_ptr`s out of
`other.segments`; any later use of them in the source is undefined behaviour.
Embedded as an empty placeholder. -/
def movedSegment : SegmentC := { chunk_data := [], count := 0 }

/-- `Combine(other)`: returns immediately when `other.count == 0`; otherwise
throws an `InternalException` on mismatching types, else adds `other.count`
and moves all of `other`'s segments to the back of this collection's list.
Note that `other.count` is never reset.  The result pair is
(this after, other after). -/
def combineE (a b : CollectionC) : Except String (CollectionC × CollectionC) :=
  if b.count = 0 then Except.ok (a, b) else
  if a.types ≠ b.types then
    Except.error "Attempting to combine ColumnDataCollections with mismatching types"
  else
    Except.ok ({ a with count := a.count + b.count, segments := a.segments ++ b.segments },
               { b with segments := b.segments.map (fun _ => movedSegment) })

/-- The copy constructor `ColumnDataCollection(other)`: delegates to the
constructor with `other`'s (shared) allocator and `other`'s types — producing
an empty collection — then marks `other.finished_append = true`.  The
`D_ASSERT(!types.empty())` is embedded as an error.  The result pair is
(the new collection, other after). -/
def copyConstructE (other : CollectionC) : Except String (CollectionC × CollectionC) :=
  if other.types.isEmpty then Except.error "D_ASSERT failed: !types.empty()" else
  Except.ok (initCollection other.alloc other.types, { other with finished_append := true })

/-- Modelled from the spec: a segment's `ChunkCount()` is the number of its
chunks. -/
def segChunkCount (s : SegmentC) : Nat := s.chunk_data.length

/-- `ChunkCount()`: total number of chunks over all segments. -/
def chunkCountC (c : CollectionC) : Nat :=
  (c.segments.map segChunkCount).sum

/-- The chunk counts of a collection, flattened in (segment, chunk) order. -/
def chunkCountsOf (c : CollectionC) : List Nat :=
  (c.segments.map SegmentC.chunk_data).flatten

/-- The count of the last segment (`segments.back()->count`); 0 when there is
no segment. -/
def lastSegCount (c : CollectionC) : Nat :=
  (c.segments.getLastD movedSegment).count

/-!  ## Scan state machine  -/

/-- The view of a collection a scan reads: per segment, the list of its chunk
row counts (`segments[i]->chunk_data[j].count`). -/
abbrev Segs := List (List Nat)

/-- The scan view of a collection. -/
def segsView (c : CollectionC) : Segs :=
  c.segments.map SegmentC.chunk_data

/-- `ColumnDataScanState` (projection and read-hint fields omitted; the pin
cache `current_chunk_state.handles` is embedded as an abstract list whose only
observable operation here is being cleared). -/
structure ScanState where
  chunk_index : Nat
  segment_index : Nat
  current_row_index : Nat
  next_row_index : Nat
  handles : List Nat
deriving DecidableEq

/-- `InitializeScan`: all indices zeroed, pin cache cleared. -/
def initScan : ScanState :=
  { chunk_index := 0, segment_index := 0, current_row_index := 0, next_row_index := 0,
    handles := [] }

/-- The chunk counts of segment `i` (`segments[i]->chunk_data`). -/
def segChunks (segs : Segs) (i : Nat) : List Nat := segs.getD i []

/-- The guard-and-advance portion of `NextScanIndex`: the initial
`segment_index >= segments.size()` check and the
`while (chunk_index >= segments[segment_index]->chunk_data.size())` loop,
which resets `chunk_index`, advances `segment_index` and clears the pin cache.
Returns the state together with `true` when a scannable chunk was found. -/
def scanWhile (segs : Segs) (s : ScanState) : ScanState × Bool :=
  if _h : s.segment_index < segs.length then
    if (segChunks segs s.segment_index).length ≤ s.chunk_index then
      scanWhile segs { s with chunk_index := 0, segment_index := s.segment_index + 1,
                              handles := [] }
    else (s, true)
  else (s, false)
termination_by segs.length - s.segment_index
decreasing_by simp at *; omega

/-- `NextScanIndex`: sets `current_row_index` (and the out-parameter
`row_index`) to `next_row_index`, runs the guard loop, and on success
publishes `(segment_index, chunk_index, row_index)`, post-incrementing
`chunk_index` and bumping `next_row_index` by the published chunk's count. -/
def nextScanIndex (segs : Segs) (s : ScanState) : ScanState × Option (Nat × Nat × Nat) :=
  let row_index := s.next_row_index
  let s0 := { s with current_row_index := s.next_row_index }
  match scanWhile segs s0 with
  | (s1, false) => (s1, none)
  | (s1, true) =>
    let cnt := (segChunks segs s1.segment_index).getD s1.chunk_index 0
    ({ s1 with next_row_index := s1.next_row_index + cnt, chunk_index := s1.chunk_index + 1 },
     some (s1.segment_index, s1.chunk_index, row_index))

/-- Repeatedly call `NextScanIndex` (at most `fuel` times), collecting the
published `(segment_index, chunk_index, row_index)` triples until it reports
that no chunks are left. -/
def scanYields (segs : Segs) : ScanState → Nat → List (Nat × Nat × Nat)
  | _, 0 => []
  | s, fuel + 1 =>
    match nextScanIndex segs s with
    | (s1, some trip) => trip :: scanYields segs s1 fuel
    | (_, none) => []

/-- The expected yield sequence, written from the claim: all
`(segment_index, chunk_index)` pairs of the collection in lexicographic order,
each with the running sum of the counts of the chunks yielded before it. -/
def lexEnumFrom (segs : Segs) (i j base : Nat) : List (Nat × Nat × Nat) :=
  if h : i < segs.length then
    if hj : j < (segChunks segs i).length then
      (i, j, base) :: lexEnumFrom segs i (j + 1) (base + (segChunks segs i).getD j 0)
    else lexEnumFrom segs (i + 1) 0 base
  else []
termination_by (segs.length - i, (segChunks segs i).length - j)
decreasing_by
  · right; omega
  · left; omega

/-- The full expected yield sequence of a scan started by `InitializeScan`. -/
def lexEnum (segs : Segs) : List (Nat × Nat × Nat) := lexEnumFrom segs 0 0 0

/-!  ## GetRows / ResultEquals  -/

/-- A cell value as compared by `ResultEquals`; `none` embeds SQL NULL. -/
abbrev ValueM := Option Int

/-- Modelled from the spec: `Value::DefaultValuesAreEqual(a, b)` is the
value-equality collaborator used by `ResultEquals` for row-by-row comparison
(NULL equal to NULL). -/
def defaultValuesAreEqual (a b : ValueM) : Bool := a = b

/-- Rendering of a value inside the mismatch message. -/
def valueToString (v : ValueM) : String :=
  match v with
  | none => "NULL"
  | some i => toString i

/-- The `StringUtil::Format` mismatch message of `ResultEquals`. -/
def mismatchMessage (l r : ValueM) (row col : Nat) : String :=
  valueToString l ++ " <> " ++ valueToString r ++ " (row: " ++ toString row ++
    ", col: " ++ toString col ++ ")"

/-- The materialized view `GetRows()` exposes to `ResultEquals`: the
collection's `ColumnCount()`, its `Count()`, and the row table of the
`ColumnDataRowCollection`, where `GetValue(c, r)` reads row `r`, column `c`. -/
structure RowsModel where
  columnCount : Nat
  cnt : Nat
  rows : List (List ValueM)
deriving DecidableEq

/-- `rows.GetValue(c, r)`. -/
def getRowValue (m : RowsModel) (c r : Nat) : ValueM :=
  (m.rows.getD r []).getD c none

/-- The inner column loop of `ResultEquals` over columns `0 .. n-1` of row
`r`.  NOTE: exactly as in the source, `rvalue` is read from `left_rows`
(`auto rvalue = left_rows.GetValue(c, r);`), not from `right_rows`. -/
def resultEqualsRow (left right : RowsModel) (r : Nat) : Nat → Except String Unit
  | 0 => Except.ok ()
  | n + 1 =>
    match resultEqualsRow left right r n with
    | Except.error e => Except.error e
    | Except.ok () =>
      let lvalue := getRowValue left n r
      let rvalue := getRowValue left n r
      if defaultValuesAreEqual lvalue rvalue then Except.ok ()
      else Except.error (mismatchMessage lvalue rvalue r n)

/-- The outer row loop of `ResultEquals` over rows `0 .. n-1`. -/
def resultEqualsRows (left right : RowsModel) : Nat → Except String Unit
  | 0 => Except.ok ()
  | n + 1 =>
    match resultEqualsRows left right n with
    | Except.error e => Except.error e
    | Except.ok () => resultEqualsRow left right n left.columnCount

/-- `ResultEquals(left, right, error_message)`: compares `ColumnCount()` and
`Count()`, then every value; `Except.ok ()` embeds `return true`,
`Except.error msg` embeds `error_message = msg; return false`. -/
def resultEquals (left right : RowsModel) : Except String Unit :=
  if left.columnCount ≠ right.columnCount then Except.error "Column count mismatch"
  else if left.cnt ≠ right.cnt then Except.error "Row count mismatch"
  else resultEqualsRows left right left.cnt

/-- The corrected comparison the spec demands (§9: "Any implementation of
this spec must read from the right-hand collection"): identical to
`resultEqualsRow` except that `rvalue` is read from `right`. -/
def resultEqualsRowSpec (left right : RowsModel) (r : Nat) : Nat → Except String Unit
  | 0 => Except.ok ()
  | n + 1 =>
    match resultEqualsRowSpec left right r n with
    | Except.error e => Except.error e
    | Except.ok () =>
      let lvalue := getRowValue left n r
      let rvalue := getRowValue right n r
      if defaultValuesAreEqual lvalue rvalue then Except.ok ()
      else Except.error (mismatchMessage lvalue rvalue r n)

/-!  ## Per-type copy engine

The vector-descriptor table of a segment (`GetVectorData` / `AllocateVector` /
`AddChildIndex` / `GetChildIndex` are declared in the provided source and
described by the spec §4.2; they are modelled from the spec here).  A
descriptor's block region is embedded as its `data` and `validity` contents
directly (`GetDataPointer` + `GetValidityPointer` expose exactly these). -/

/-- `VectorMetaData`: row count, overflow link `next_data`, nested-child link
`child_index`, and the contents of the descriptor's block region. -/
structure VectorMetaData (V : Type) where
  count : Nat
  next_data : Option Nat
  child_index : Option Nat
  validity : Nat → Bool
  data : Nat → V

instance {V : Type} [Inhabited V] : Inhabited (VectorMetaData V) :=
  ⟨{ count := 0, next_data := none, child_index := none,
     validity := fun _ => false, data := fun _ => default }⟩

/-- A segment's vector-descriptor table, indexed by `VectorDataIndex`. -/
abbrev VTable (V : Type) := List (VectorMetaData V)

/-- `GetVectorData(index)`. -/
def getVD {V : Type} [Inhabited V] (t : VTable V) (i : Nat) : VectorMetaData V :=
  t.getD i default

/-- Write back a descriptor. -/
def setVD {V : Type} (t : VTable V) (i : Nat) (d : VectorMetaData V) : VTable V :=
  t.set i d

/-- Modelled from the spec: `AllocateVector` appends a fresh descriptor
(count 0, uninitialized block contents, no links) to the table and, when a
predecessor is given, links it as the predecessor's `next_data`.  Returns the
new table and the new descriptor's index. -/
def allocateVector {V : Type} [Inhabited V] (t : VTable V) (pred : Option Nat) :
    VTable V × Nat :=
  let idx := t.length
  let fresh : VectorMetaData V :=
    { count := 0, next_data := none, child_index := none,
      validity := fun _ => false, data := fun _ => default }
  let t1 := t ++ [fresh]
  match pred with
  | none => (t1, idx)
  | some p => (setVD t1 p { getVD t1 p with next_data := some idx }, idx)

/-- `UnifiedVectorFormat`: selection vector, validity mask (with its cached
`AllValid()` flag), and raw data.  Theorems that depend on the `AllValid()`
shortcut take the consistency of the flag as a hypothesis. -/
structure UVF (V : Type) where
  sel : Nat → Nat
  valid : Nat → Bool
  allV : Bool
  data : Nat → V

/-- `ValidityMask::SetAllValid(STANDARD_VECTOR_SIZE)`: marks the first
`STANDARD_VECTOR_SIZE` rows valid. -/
def setAllValid (v : Nat → Bool) : Nat → Bool :=
  fun s => if s < STANDARD_VECTOR_SIZE then true else v s

/-- The per-row `for` loop inside one window of `TemplatedColumnDataCopy`:
for each `i < n`, looks up `source_idx = sel(offset + i)`; if the source row
is valid, assigns `OP::Operation` of the source value at target slot
`count + i` (`base + i`), otherwise flips that slot's validity bit to
invalid. -/
def innerFor {V : Type} (op : V → V) (u : UVF V) (d : Nat → V) (v : Nat → Bool)
    (base offset : Nat) : Nat → (Nat → V) × (Nat → Bool)
  | 0 => (d, v)
  | n + 1 =>
    let dv := innerFor op u d v base offset n
    let si := u.sel (offset + n)
    if u.valid si then
      (fun s => if s = base + n then op (u.data si) else dv.1 s, dv.2)
    else
      (dv.1, fun s => if s = base + n then false else dv.2 s)

/-- The lazy first-touch initialization of a descriptor's validity mask in
`TemplatedColumnDataCopy`: when the descriptor's `count == 0` (first time
appending to this vector, data still uninitialized), set all rows valid. -/
def windowInitValidity {V : Type} (cur : VectorMetaData V) : Nat → Bool :=
  if cur.count = 0 then setAllValid cur.validity else cur.validity

/-- The `while (remaining > 0)` engine of `TemplatedColumnDataCopy`: each
iteration computes `append_count = min(STANDARD_VECTOR_SIZE - count,
remaining)`, lazily initializes the validity mask to all-valid when the
descriptor's `count == 0`, runs the per-row loop, bumps the descriptor's
count, and on overflow allocates (or traverses to) the `next_data` descriptor.
Embedded with explicit fuel; the wrapper passes `remaining + t.length + 1`,
sufficient because every visited pre-existing full descriptor is distinct and
every fresh descriptor receives at least one row. -/
def templatedCopyLoop {V : Type} [Inhabited V] (op : V → V) (u : UVF V) :
    Nat → VTable V → Nat → Nat → Nat → VTable V
  | 0, t, _, _, _ => t
  | fuel + 1, t, idx, offset, remaining =>
    if remaining = 0 then t else
    let cur := getVD t idx
    let append_count := min (STANDARD_VECTOR_SIZE - cur.count) remaining
    let dv := innerFor op u cur.data (windowInitValidity cur) cur.count offset append_count
    let t1 := setVD t idx
      { cur with data := dv.1, validity := dv.2, count := cur.count + append_count }
    let offset1 := offset + append_count
    let remaining1 := remaining - append_count
    if remaining1 = 0 then t1 else
      let next :=
        match (getVD t1 idx).next_data with
        | some nidx => (t1, nidx)
        | none => allocateVector t1 (some idx)
      templatedCopyLoop op u fuel next.1 next.2 offset1 remaining1

/-- `TemplatedColumnDataCopy<OP>` on the descriptor chain starting at `idx`,
copying the `[offset, offset + count)` window of `u`. -/
def templatedCopy {V : Type} [Inhabited V] (op : V → V) (u : UVF V) (t : VTable V)
    (idx offset count : Nat) : VTable V :=
  templatedCopyLoop op u (count + t.length + 1) t idx offset count

/-- `ColumnDataCopyValidity`: initializes the target mask to all-valid when
`target_offset == 0`, then — unless the source mask reports `AllValid()` —
flips the bit at `target_offset + i` for every source row
`sel(source_offset + i)` that is invalid. -/
def cdcValidityLoop {V : Type} (u : UVF V) (v : Nat → Bool) (srcOff tgtOff : Nat) :
    Nat → (Nat → Bool)
  | 0 => v
  | n + 1 =>
    let v1 := cdcValidityLoop u v srcOff tgtOff n
    let idx := u.sel (srcOff + n)
    if u.valid idx then v1 else fun s => if s = tgtOff + n then false else v1 s

/-- `ColumnDataCopyValidity(source_data, target, source_offset, target_offset,
copy_count)`. -/
def columnDataCopyValidity {V : Type} (u : UVF V) (target : Nat → Bool)
    (source_offset target_offset copy_count : Nat) : Nat → Bool :=
  let v0 := if target_offset = 0 then setAllValid target else target
  if u.allV then v0 else cdcValidityLoop u v0 source_offset target_offset copy_count

/-!  ### String copy  -/

/-- `string_t`, embedded as its byte content plus where it lives (inline in
the struct, or out-of-line).  `IsInlined()` holds when the bytes fit the
inline capacity of `string_t` (12 bytes). -/
structure StrT where
  bytes : List UInt8
  heapResident : Bool
deriving DecidableEq

instance : Inhabited StrT := ⟨{ bytes := [], heapResident := false }⟩

/-- `string_t::IsInlined()`. -/
def StrT.inlined (s : StrT) : Bool := s.bytes.length ≤ 12

/-- Modelled from the spec: `heap.AddBlob(input)` copies the non-inline
string's bytes into the segment heap and returns a `string_t` equivalent in
value (byte-equal) but pointing into that heap. -/
def heapAddBlob (s : StrT) : StrT := { bytes := s.bytes, heapResident := true }

/-- `StringValueCopy::Operation`: inline strings are stored by value,
non-inline strings are stored as the `string_t` returned by the segment
heap's `AddBlob`. -/
def stringValueCopyOp (s : StrT) : StrT := if s.inlined then s else heapAddBlob s

/-!  ### List copy  -/

/-- `list_entry_t`. -/
structure ListEntryT where
  offset : Nat
  length : Nat
deriving DecidableEq

instance : Inhabited ListEntryT := ⟨{ offset := 0, length := 0 }⟩

/-- `ListValueCopy::Operation` with the `child_list_size` recorded in the
copy's meta data: shifts the stored entry's `offset`, preserving `length`. -/
def listValueCopyOp (cls : Nat) (e : ListEntryT) : ListEntryT :=
  { e with offset := e.offset + cls }

/-- The `while (current_child_index.IsValid())` traversal of
`ColumnDataCopy<list_entry_t>`: total `count` of the descriptor chain
reachable from `i` via `next_data`.  Embedded with fuel `t.length`, which is
sufficient for the acyclic chains the segment builds (`next_data` always
points to a strictly larger, in-bounds index). -/
def chainTotalFuel {V : Type} [Inhabited V] (t : VTable V) : Nat → Nat → Nat
  | _, 0 => 0
  | i, fuel + 1 =>
    let d := getVD t i
    d.count + (match d.next_data with
               | none => 0
               | some j => chainTotalFuel t j fuel)

/-- Total count of the descriptor chain starting at `i`. -/
def chainTotal {V : Type} [Inhabited V] (t : VTable V) (i : Nat) : Nat :=
  chainTotalFuel t i t.length

/-- The two descriptor populations a list column touches: the parent chain of
`list_entry_t` descriptors and the child chain of child-typed descriptors,
with the segment's child-index table (`AddChildIndex` / `GetChildIndex`)
linking them. -/
structure ListCopyState (W : Type) where
  parentT : VTable ListEntryT
  childT : VTable W
  childHeads : List Nat

/-- The `if (!meta_data.GetVectorMetaData().child_index.IsValid())` step of
`ColumnDataCopy<list_entry_t>`: on first use allocate the child descriptor,
record it via `AddChildIndex` and store the child-index-table position in the
parent descriptor; then resolve the child chain's head via `GetChildIndex`. -/
def ensureChildAllocated {W : Type} [Inhabited W] (st : ListCopyState W) (pidx : Nat) :
    ListCopyState W × Nat :=
  match (getVD st.parentT pidx).child_index with
  | some ci => (st, st.childHeads.getD ci 0)
  | none =>
    let alloc := allocateVector st.childT none
    let heads1 := st.childHeads ++ [alloc.2]
    let pT1 := setVD st.parentT pidx
      { getVD st.parentT pidx with child_index := some (heads1.length - 1) }
    ({ st with childT := alloc.1, childHeads := heads1, parentT := pT1 }, alloc.2)

/-- `ColumnDataCopy<list_entry_t>`: ensures the child descriptor exists,
computes `current_list_size` by traversing the child chain, recursively
appends the entire child vector (`childU`, of length `childLen =
ListVector::GetListSize(source)`) into the child chain, then copies the
incoming window of list entries with their offsets shifted by the child
chain's pre-append total (`meta_data.child_list_size = current_list_size`). -/
def columnDataCopyList {W : Type} [Inhabited W] (childOp : W → W) (childU : UVF W)
    (childLen : Nat) (parentU : UVF ListEntryT) (st : ListCopyState W)
    (pidx offset copy_count : Nat) : ListCopyState W :=
  let st1h := ensureChildAllocated st pidx
  let st1 := st1h.1
  let head := st1h.2
  let current_list_size := chainTotal st1.childT head
  let childT2 := templatedCopy childOp childU st1.childT head 0 childLen
  let parentT2 := templatedCopy (listValueCopyOp current_list_size) parentU st1.parentT
    pidx offset copy_count
  { st1 with childT := childT2, parentT := parentT2 }

/-!  ## Helper lemmas  -/

theorem mem_of_getLast?_eq {α : Type} {l : List α} {x : α} (h : l.getLast? = some x) :
    x ∈ l := by
  obtain ⟨hne, rfl⟩ := List.mem_getLast?_eq_getLast (l := l) (x := x) (by simp [Option.mem_def, h])
  exact List.getLast_mem hne

theorem appendStateE_ok_iff {c : CollectionC} {input : DataChunkC} {c' : CollectionC}
    (h : appendStateE c input = Except.ok c') :
    ∃ seg, c.finished_append = false ∧ c.types = input.types ∧
      c.segments.getLast? = some seg ∧ seg.chunk_data ≠ [] ∧
      c' = appendCore c seg input.size := by
  by_cases hfin : c.finished_append = true
  · simp [appendStateE, hfin] at h
  · have hfin' : c.finished_append = false := by simpa using hfin
    by_cases hty : c.types = input.types
    · rcases hlast : c.segments.getLast? with _ | seg
      · simp [appendStateE, hfin', hty, hlast] at h
      · by_cases hchunk : seg.chunk_data.isEmpty = true
        · simp [appendStateE, hfin', hty, hlast, hchunk] at h
        · have hchunk' : seg.chunk_data ≠ [] := by
            simpa [List.isEmpty_iff] using hchunk
          refine ⟨seg, hfin', hty, rfl, hchunk', ?_⟩
          simp [appendStateE, hfin', hty, hlast, hchunk] at h
          exact h.symm
    · simp [appendStateE, hfin', hty] at h

theorem initializeAppend_spec (c : CollectionC) (h : c.finished_append = false) :
    ∃ c1, initializeAppend c = Except.ok c1 ∧
      c1.types = c.types ∧ c1.count = c.count ∧ c1.finished_append = false ∧
      c1.alloc = c.alloc ∧ lastSegCount c1 = lastSegCount c ∧
      (chunkCountsOf c1 = chunkCountsOf c ∨ chunkCountsOf c1 = chunkCountsOf c ++ [0]) := by
  rcases List.eq_nil_or_concat c.segments with hsegs | ⟨l', x, hlx⟩
  · refine ⟨{ c with segments := [{ chunk_data := [0], count := 0 }] }, ?_, rfl, rfl, h, rfl,
      ?_, ?_⟩
    · simp [initializeAppend, h, hsegs, createSegment, segAllocateNewChunk, setLastSeg]
    · simp [lastSegCount, hsegs, movedSegment]
    · right
      simp [chunkCountsOf, hsegs]
  · rw [List.concat_eq_append] at hlx
    have hlast : c.segments.getLast? = some x := by rw [hlx]; simp
    have hemp : c.segments.isEmpty = false := by rw [hlx]; simp
    by_cases hx : x.chunk_data.isEmpty = true
    · have hx' : x.chunk_data = [] := by simpa [List.isEmpty_iff] using hx
      refine ⟨{ c with segments := l' ++ [{ x with chunk_data := [0] }] }, ?_, rfl, rfl, h, rfl,
        ?_, ?_⟩
      · simp [initializeAppend, h, hemp, hlast, hx, segAllocateNewChunk, setLastSeg, hlx,
          List.dropLast_concat, hx']
      · simp [lastSegCount, hlx]
      · right
        simp [chunkCountsOf, hlx, hx']
    · refine ⟨c, ?_, rfl, rfl, h, rfl, rfl, Or.inl rfl⟩
      simp only [initializeAppend, h, Bool.false_eq_true, if_false, hemp, hlast, hx]
      have hsl : setLastSeg c.segments x = c.segments := by
        rw [hlx]; simp [setLastSeg, List.dropLast_concat]
      rw [hsl, ← h]

theorem appendCore_count (c : CollectionC) (seg : SegmentC) (n : Nat) :
    (appendCore c seg n).count = c.count + n := rfl

theorem appendCore_lastSegCount (c : CollectionC) (seg : SegmentC) (n : Nat) :
    lastSegCount (appendCore c seg n) = seg.count + n := by
  simp [appendCore, lastSegCount, setLastSeg]

theorem appendStateE_count {c : CollectionC} {input : DataChunkC} {c' : CollectionC}
    (h : appendStateE c input = Except.ok c') :
    c'.count = c.count + input.size ∧ lastSegCount c' = lastSegCount c + input.size := by
  obtain ⟨seg, _, _, hlast, _, rfl⟩ := appendStateE_ok_iff h
  refine ⟨rfl, ?_⟩
  rw [appendCore_lastSegCount]
  have : lastSegCount c = seg.count := by
    simp [lastSegCount, List.getLastD_eq_getLast?, hlast]
  rw [this]

theorem appendE_count {c : CollectionC} {input : DataChunkC} {c' : CollectionC}
    (h : appendE c input = Except.ok c') :
    c'.count = c.count + input.size := by
  unfold appendE at h
  rcases hinit : initializeAppend c with e | c1
  · rw [hinit] at h; exact absurd h (by simp [Bind.bind, Except.bind])
  · rw [hinit] at h
    simp only [Bind.bind, Except.bind] at h
    have hcount : c1.count = c.count := by
      have hfin : c.finished_append = false := by
        by_contra hf
        have : c.finished_append = true := by simpa using hf
        unfold initializeAppend at hinit
        rw [this] at hinit
        simp at hinit
      obtain ⟨c1', hok, _, hcnt, _⟩ := initializeAppend_spec c hfin
      rw [hinit] at hok
      cases hok
      exact hcnt
    rw [(appendStateE_count h).1, hcount]

theorem combineE_count {a b : CollectionC} {p : CollectionC × CollectionC}
    (h : combineE a b = Except.ok p) :
    p.1.count = a.count + b.count ∧ p.2.count = b.count := by
  unfold combineE at h
  split at h
  · rename_i hb
    cases h
    simp [hb]
  · split at h
    · exact absurd h (by simp)
    · cases h
      simp

/-!  ## Build histories (for the count-consistency claim)  -/

/-- The collections reachable by the public mutation API, together with the
sizes of all `DataChunk`s ever appended to them (directly or through a
collection combined into them), in order. -/
inductive BuiltFrom : CollectionC → List Nat → Prop
  | init (alloc : Nat) (types : List LType) (h : types ≠ []) :
      BuiltFrom (initCollection alloc types) []
  | append {c : CollectionC} {hist : List Nat} {input : DataChunkC} {c' : CollectionC} :
      BuiltFrom c hist → appendE c input = Except.ok c' →
      BuiltFrom c' (hist ++ [input.size])
  | combine {a b : CollectionC} {ha hb : List Nat} {p : CollectionC × CollectionC} :
      BuiltFrom a ha → BuiltFrom b hb → combineE a b = Except.ok p →
      BuiltFrom p.1 (ha ++ hb)

/-!  ## Concrete collections used by witnesses and counterexamples  -/

/-- A single-column `int64` chunk of `n` rows. -/
def chunkI64 (n : Nat) : DataChunkC := { types := [LType.tint64], size := n }

/-- The empty single-column `int64` collection. -/
def emptyI64 : CollectionC := initCollection 0 [LType.tint64]

/-- Append a chunk of `n` rows (total function for building concrete
collections; the `Except` never fails on these inputs). -/
def appendD (c : CollectionC) (n : Nat) : CollectionC :=
  (appendE c (chunkI64 n)).toOption.getD c

/-- The single-column `int64` collection holding chunks of the given sizes. -/
def collI64 (ns : List Nat) : CollectionC := ns.foldl appendD emptyI64

deriving instance DecidableEq for Except

/-!  ## Claims  -/

/-!  ### Copy engine lemmas (C6, C7, C9)  -/

theorem getVD_setVD {V : Type} [Inhabited V] (t : VTable V) (idx : Nat)
    (d : VectorMetaData V) (h : idx < t.length) : getVD (setVD t idx d) idx = d := by
  simp [getVD, setVD, List.getD, List.getElem?_set_self, h]

theorem innerFor_untouched {V : Type} (op : V → V) (u : UVF V) (d : Nat → V) (v : Nat → Bool)
    (base offset : Nat) :
    ∀ (n s : Nat), (∀ i, i < n → s ≠ base + i) →
      (innerFor op u d v base offset n).1 s = d s ∧
      (innerFor op u d v base offset n).2 s = v s := by
  intro n
  induction n with
  | zero => intro s _; exact ⟨rfl, rfl⟩
  | succ n ih =>
    intro s hs
    have hne : s ≠ base + n := hs n (by omega)
    have ih' := ih s (fun i hi => hs i (by omega))
    by_cases hv : u.valid (u.sel (offset + n)) = true
    · simp [innerFor, hv, hne, ih'.1, ih'.2]
    · simp [innerFor, hv, hne, ih'.1, ih'.2]

theorem innerFor_write {V : Type} (op : V → V) (u : UVF V) (d : Nat → V) (v : Nat → Bool)
    (base offset : Nat) :
    ∀ (n i : Nat), i < n →
      (innerFor op u d v base offset n).1 (base + i) =
        (if u.valid (u.sel (offset + i)) = true then op (u.data (u.sel (offset + i)))
         else d (base + i)) ∧
      (innerFor op u d v base offset n).2 (base + i) =
        (if u.valid (u.sel (offset + i)) = true then v (base + i) else false) := by
  intro n
  induction n with
  | zero => intro i hi; exact absurd hi (by omega)
  | succ n ih =>
    intro i hi
    by_cases hin : i = n
    · subst hin
      have hunt := innerFor_untouched op u d v base offset i (base + i) (fun k hk => by omega)
      by_cases hv : u.valid (u.sel (offset + i)) = true
      · simp [innerFor, hv, hunt.1, hunt.2]
      · simp [innerFor, hv, hunt.1, hunt.2]
    · have hi' : i < n := by omega
      have ihh := ih i hi'
      have hne : base + i ≠ base + n := by omega
      by_cases hv : u.valid (u.sel (offset + n)) = true
      · simp [innerFor, hv, hne, ihh.1, ihh.2]
      · simp [innerFor, hv, hne, ihh.1, ihh.2]

/-- When the window fits in the current descriptor — as the append driver
guarantees for every root column — `TemplatedColumnDataCopy` performs exactly
one iteration: lazy validity initialization, the per-row loop, and the count
bump, writing the result back at `idx`. -/
theorem templatedCopy_window_eq {V : Type} [Inhabited V] (op : V → V) (u : UVF V)
    (t : VTable V) (idx offset n : Nat) (hn : n ≠ 0)
    (hfit : (getVD t idx).count + n ≤ STANDARD_VECTOR_SIZE) :
    templatedCopy op u t idx offset n = setVD t idx
      { getVD t idx with
        data := (innerFor op u (getVD t idx).data (windowInitValidity (getVD t idx))
            (getVD t idx).count offset n).1,
        validity := (innerFor op u (getVD t idx).data (windowInitValidity (getVD t idx))
            (getVD t idx).count offset n).2,
        count := (getVD t idx).count + n } := by
  have hmin : min (STANDARD_VECTOR_SIZE - (getVD t idx).count) n = n :=
    Nat.min_eq_right (by omega)
  unfold templatedCopy
  simp only [templatedCopyLoop]
  rw [if_neg hn, hmin]
  simp

theorem templatedCopy_data_written {V : Type} [Inhabited V] (op : V → V) (u : UVF V)
    (t : VTable V) (idx offset n : Nat) (hidx : idx < t.length) (hn : n ≠ 0)
    (hfit : (getVD t idx).count + n ≤ STANDARD_VECTOR_SIZE) (i : Nat) (hi : i < n)
    (hv : u.valid (u.sel (offset + i)) = true) :
    (getVD (templatedCopy op u t idx offset n) idx).data ((getVD t idx).count + i) =
      op (u.data (u.sel (offset + i))) := by
  rw [templatedCopy_window_eq op u t idx offset n hn hfit, getVD_setVD _ _ _ hidx]
  have hw := (innerFor_write op u (getVD t idx).data (windowInitValidity (getVD t idx))
    (getVD t idx).count offset n i hi).1
  simp only []
  rw [hw, if_pos hv]

theorem cdcValidityLoop_untouched {V : Type} (u : UVF V) (v : Nat → Bool)
    (srcOff tgtOff : Nat) :
    ∀ (n s : Nat), (∀ i, i < n → s ≠ tgtOff + i) →
      cdcValidityLoop u v srcOff tgtOff n s = v s := by
  intro n
  induction n with
  | zero => intro s _; rfl
  | succ n ih =>
    intro s hs
    have hne : s ≠ tgtOff + n := hs n (by omega)
    have ih' := ih s (fun i hi => hs i (by omega))
    by_cases hv : u.valid (u.sel (srcOff + n)) = true
    · simp [cdcValidityLoop, hv, hne, ih']
    · simp [cdcValidityLoop, hv, hne, ih']

theorem cdcValidityLoop_write {V : Type} (u : UVF V) (v : Nat → Bool) (srcOff tgtOff : Nat) :
    ∀ (n i : Nat), i < n →
      cdcValidityLoop u v srcOff tgtOff n (tgtOff + i) =
        (if u.valid (u.sel (srcOff + i)) = true then v (tgtOff + i) else false) := by
  intro n
  induction n with
  | zero => intro i hi; exact absurd hi (by omega)
  | succ n ih =>
    intro i hi
    by_cases hin : i = n
    · subst hin
      have hunt := cdcValidityLoop_untouched u v srcOff tgtOff i (tgtOff + i)
        (fun k hk => by omega)
      by_cases hv : u.valid (u.sel (srcOff + i)) = true
      · simp [cdcValidityLoop, hv, hunt]
      · simp [cdcValidityLoop, hv, hunt]
    · have hi' : i < n := by omega
      have ihh := ih i hi'
      have hne : tgtOff + i ≠ tgtOff + n := by omega
      by_cases hv : u.valid (u.sel (srcOff + n)) = true
      · simp [cdcValidityLoop, hv, hne, ihh]
      · simp [cdcValidityLoop, hv, hne, ihh]

theorem ensureChild_parent_preserved {W : Type} [Inhabited W] (st : ListCopyState W)
    (pidx : Nat) (hp : pidx < st.parentT.length) :
    (ensureChildAllocated st pidx).1.parentT.length = st.parentT.length ∧
    (getVD (ensureChildAllocated st pidx).1.parentT pidx).count =
      (getVD st.parentT pidx).count ∧
    (getVD (ensureChildAllocated st pidx).1.parentT pidx).data =
      (getVD st.parentT pidx).data ∧
    (getVD (ensureChildAllocated st pidx).1.parentT pidx).validity =
      (getVD st.parentT pidx).validity := by
  unfold ensureChildAllocated
  rcases h : (getVD st.parentT pidx).child_index with _ | ci
  · simp only [h]
    refine ⟨by simp [setVD], ?_, ?_, ?_⟩ <;> rw [getVD_setVD _ _ _ hp]
  · simp [h]

/-- Concrete row table: one row, one column, value 0. -/
def rowsL : RowsModel := { columnCount := 1, cnt := 1, rows := [[some 0]] }

/-- Concrete row table: one row, one column, value 1. -/
def rowsR : RowsModel := { columnCount := 1, cnt := 1, rows := [[some 1]] }

/-- C1 (code bug): for the one-row, one-column inputs with values 0 (left) and
1 (right) — equal `ColumnCount()` and `Count()`, values not
`DefaultValuesAreEqual` — `ResultEquals` nevertheless returns true, because
the source reads `rvalue` from `left_rows` instead of `right_rows`; the
comparison the spec mandates (reading from the right-hand collection) detects
the mismatch and produces the message for position (0, 0). -/
theorem resultEquals_reads_rvalue_from_left :
    defaultValuesAreEqual (getRowValue rowsL 0 0) (getRowValue rowsR 0 0) = false ∧
    resultEquals rowsL rowsR = Except.ok () ∧
    resultEqualsRowSpec rowsL rowsR 0 1 =
      Except.error (mismatchMessage (some 0) (some 1) 0 0) := by
  exact ⟨rfl, rfl, rfl⟩

/-- C2 counterexample: after `a.Combine(b)` with `a` holding 2 rows and `b`
holding 1 row (equal schemas), `b.Count()` is 1, not 0: `Combine` adds
`other.count` to `this` and moves the segments but never resets
`other.count`. -/
theorem combine_leaves_other_count_cex :
    (combineE (collI64 [2]) (collI64 [1])).map (fun p => p.2.count) = Except.ok 1 ∧
    ¬ ((combineE (collI64 [2]) (collI64 [1])).map (fun p => p.2.count) = Except.ok 0) := by
  exact ⟨rfl, by decide⟩

/-- C2 (amended): for collections with equal schemas, `a.Combine(b)` succeeds;
afterwards `a.Count()` is the sum of the old counts and `a`'s segment list is
old-`a`'s segments followed by old-`b`'s segments (so a scan of `a` yields the
rows of old `a` in order followed by the rows of old `b` in order) — but
`b.Count()` keeps its old value: the count of `b` is never reset (only its
segments are moved out), and when `b` was empty `Combine` returns with both
collections completely unchanged. -/
theorem combine_transfer_amended (a b : CollectionC) (h : a.types = b.types) :
    ∃ p, combineE a b = Except.ok p ∧
      p.1.count = a.count + b.count ∧
      p.2.count = b.count ∧
      (b.count ≠ 0 → p.1.segments = a.segments ++ b.segments) ∧
      (b.count = 0 → p = (a, b)) := by
  unfold combineE
  by_cases hb : b.count = 0
  · exact ⟨(a, b), by simp [hb]⟩
  · refine ⟨({ a with count := a.count + b.count, segments := a.segments ++ b.segments },
      { b with segments := b.segments.map (fun _ => movedSegment) }), ?_, rfl, rfl, ?_, ?_⟩
    · simp [hb, h]
    · intro _; rfl
    · intro hb0; exact absurd hb0 hb

/-- Witness for `combine_transfer_amended` at `a = collI64 [2]`,
`b = collI64 [1]`. -/
theorem combine_transfer_amended_witness :
    (collI64 [2]).types = (collI64 [1]).types ∧
    ∃ p, combineE (collI64 [2]) (collI64 [1]) = Except.ok p ∧
      p.1.count = (collI64 [2]).count + (collI64 [1]).count ∧
      p.2.count = (collI64 [1]).count ∧
      ((collI64 [1]).count ≠ 0 → p.1.segments = (collI64 [2]).segments ++ (collI64 [1]).segments) ∧
      ((collI64 [1]).count = 0 → p = (collI64 [2], collI64 [1])) :=
  ⟨rfl, combine_transfer_amended (collI64 [2]) (collI64 [1]) rfl⟩

/-- C3 counterexample: `Combine` with a mismatched peer does NOT raise an
error when the peer is empty: `if (other.count == 0) return;` precedes the
type check, so combining an `int64` collection with an empty `varchar`
collection succeeds (and changes nothing). -/
theorem combine_empty_peer_mismatch_cex :
    (initCollection 0 [LType.tint64]).types ≠ (initCollection 0 [LType.tvarchar]).types ∧
    (initCollection 0 [LType.tvarchar]).count = 0 ∧
    combineE (initCollection 0 [LType.tint64]) (initCollection 0 [LType.tvarchar]) =
      Except.ok (initCollection 0 [LType.tint64], initCollection 0 [LType.tvarchar]) := by
  exact ⟨by decide, rfl, rfl⟩

/-- C3 (amended): `Append` with a `DataChunk` whose type list differs from the
schema raises the internal-error condition (debug assertion) without modifying
the collection, and `Combine` with a mismatched peer raises
`InternalException` without modifying the collection — but only when the peer
is nonempty; `Combine` with an empty peer returns without error and without
modification regardless of the schema mismatch. -/
theorem schema_mismatch_amended :
    (∀ (c : CollectionC) (input : DataChunkC), c.finished_append = false →
        c.types ≠ input.types →
        appendE c input = Except.error "D_ASSERT failed: types == input.GetTypes()") ∧
    (∀ a b : CollectionC, b.count ≠ 0 → a.types ≠ b.types →
        combineE a b =
          Except.error "Attempting to combine ColumnDataCollections with mismatching types") ∧
    (∀ a b : CollectionC, b.count = 0 → combineE a b = Except.ok (a, b)) := by
  refine ⟨?_, ?_, ?_⟩
  · intro c input hfin htypes
    obtain ⟨c1, hok, hty, _, hfin1, _⟩ := initializeAppend_spec c hfin
    unfold appendE
    rw [hok]
    simp only [Bind.bind, Except.bind]
    unfold appendStateE
    rw [hfin1, hty]
    simp [htypes]
  · intro a b hb hty
    unfold combineE
    simp [hb, hty]
  · intro a b hb
    unfold combineE
    simp [hb]

/-- Witness for `schema_mismatch_amended`: mismatched `Append` on a fresh
`int64` collection, mismatched `Combine` with a nonempty `varchar` peer, and
`Combine` with an empty peer. -/
theorem schema_mismatch_amended_witness :
    (emptyI64.finished_append = false ∧ emptyI64.types ≠ [LType.tvarchar] ∧
      appendE emptyI64 { types := [LType.tvarchar], size := 1 } =
        Except.error "D_ASSERT failed: types == input.GetTypes()") ∧
    ((initCollection 0 [LType.tvarchar]).count = 0 ∧
      combineE emptyI64 (initCollection 0 [LType.tvarchar]) =
        Except.ok (emptyI64, initCollection 0 [LType.tvarchar])) := by
  refine ⟨⟨rfl, by decide, ?_⟩, rfl, ?_⟩
  · exact schema_mismatch_amended.1 emptyI64 { types := [LType.tvarchar], size := 1 } rfl
      (by decide)
  · exact schema_mismatch_amended.2.2 emptyI64 (initCollection 0 [LType.tvarchar]) rfl

/-- C4: `Count()` equals the sum of the sizes of every `DataChunk` ever
appended (directly or through combined-in collections), and each
`Append(state, input)` increments both the collection's count and the last
segment's count by exactly `input.size()`. -/
theorem count_consistency :
    (∀ (c : CollectionC) (hist : List Nat), BuiltFrom c hist → c.count = hist.sum) ∧
    (∀ (c : CollectionC) (input : DataChunkC) (c' : CollectionC),
        appendStateE c input = Except.ok c' →
        c'.count = c.count + input.size ∧ lastSegCount c' = lastSegCount c + input.size) := by
  constructor
  · intro c hist hb
    induction hb with
    | init alloc types h => rfl
    | append hb happ ih =>
      rw [appendE_count happ, ih]
      simp
    | combine hba hbb hcomb iha ihb =>
      rw [(combineE_count hcomb).1, iha, ihb]
      simp
  · intro c input c' h
    exact appendStateE_count h

/-- Witness for `count_consistency`: the collection built by appending chunks
of 2 and 3 rows has count `[2, 3].sum = 5`, and the second append raised the
count and the last segment's count from 2 to 5. -/
theorem count_consistency_witness :
    (collI64 [2, 3]).count = ([2, 3] : List Nat).sum ∧
    ((appendD (appendD emptyI64 2) 3).count = (appendD emptyI64 2).count + 3 ∧
      lastSegCount (appendD (appendD emptyI64 2) 3) = lastSegCount (appendD emptyI64 2) + 3) := by
  have h1 : BuiltFrom (appendD emptyI64 2) [2] :=
    @BuiltFrom.append emptyI64 [] (chunkI64 2) (appendD emptyI64 2)
      (BuiltFrom.init 0 [LType.tint64] (by decide)) rfl
  have h2 : BuiltFrom (appendD (appendD emptyI64 2) 3) [2, 3] :=
    @BuiltFrom.append (appendD emptyI64 2) [2] (chunkI64 3) (appendD (appendD emptyI64 2) 3)
      h1 rfl
  constructor
  · exact count_consistency.1 _ _ h2
  · exact count_consistency.2 (appendD emptyI64 2) (chunkI64 3) (appendD (appendD emptyI64 2) 3) rfl

theorem segments_decomp_of_getLast? {l : List SegmentC} {seg : SegmentC}
    (h : l.getLast? = some seg) : l = l.dropLast ++ [seg] := by
  have hne : l ≠ [] := by intro hnil; rw [hnil] at h; simp at h
  have hlast : l.getLast hne = seg := by
    rw [List.getLast?_eq_getLast_of_ne_nil hne] at h
    exact Option.some.inj h
  conv_lhs => rw [← List.dropLast_append_getLast hne, hlast]

theorem getLastD_le {l : List Nat} {B : Nat} (h : ∀ x ∈ l, x ≤ B) : l.getLastD 0 ≤ B := by
  rcases List.eq_nil_or_concat l with rfl | ⟨l', x, rfl⟩
  · simp
  · rw [List.concat_eq_append, List.getLastD_concat]
    exact h x (by simp)

theorem appendChunksLoop_bound :
    ∀ (fuel : Nat) (chunks : List Nat) (r : Nat),
      (∀ ch ∈ chunks, ch ≤ STANDARD_VECTOR_SIZE) →
      ∀ ch ∈ appendChunksLoop fuel chunks r, ch ≤ STANDARD_VECTOR_SIZE := by
  intro fuel
  induction fuel with
  | zero => intro chunks r h ch hch; exact h ch hch
  | succ fuel ih =>
    intro chunks r h ch hch
    by_cases hr : r = 0
    · rw [appendChunksLoop, if_pos hr] at hch
      exact h ch hch
    · rw [appendChunksLoop, if_neg hr] at hch
      simp only at hch
      have hc : chunks.getLastD 0 ≤ STANDARD_VECTOR_SIZE := getLastD_le h
      have hamount : min r (STANDARD_VECTOR_SIZE - chunks.getLastD 0) ≤
          STANDARD_VECTOR_SIZE - chunks.getLastD 0 := Nat.min_le_right _ _
      have hchunks1 : ∀ z ∈ (if 0 < min r (STANDARD_VECTOR_SIZE - chunks.getLastD 0) then
          setLastNat chunks (chunks.getLastD 0 + min r (STANDARD_VECTOR_SIZE - chunks.getLastD 0))
          else chunks), z ≤ STANDARD_VECTOR_SIZE := by
        intro z hz
        split at hz
        · rcases List.mem_append.mp hz with hz' | hz'
          · exact h z (List.dropLast_subset _ hz')
          · have : z = chunks.getLastD 0 + min r (STANDARD_VECTOR_SIZE - chunks.getLastD 0) := by
              simpa using hz'
            omega
        · exact h z hz
      split at hch
      · refine ih _ _ ?_ ch hch
        intro z hz
        rcases List.mem_append.mp hz with hz' | hz'
        · exact hchunks1 z hz'
        · have : z = 0 := by simpa using hz'
          omega
      · exact hchunks1 ch hch

theorem chunkCountsOf_appendCore (c : CollectionC) (seg : SegmentC) (n : Nat) :
    chunkCountsOf (appendCore c seg n) =
      (c.segments.dropLast.map SegmentC.chunk_data).flatten ++
        appendChunksLoop (n + 2) seg.chunk_data n := by
  simp [appendCore, chunkCountsOf, setLastSeg]

/-- C5: the append driver loops while rows remain, each iteration writing
`append_amount = min(remaining, STANDARD_VECTOR_SIZE - current_chunk.count)`
rows into the current chunk and allocating a new chunk in the same segment
when it fills.  Consequently (first conjunct) every chunk count stays at most
`STANDARD_VECTOR_SIZE` across any `Append`, and (second conjunct) with
`STANDARD_VECTOR_SIZE = 1024`, appending a 1500-row chunk to an empty
collection yields `ChunkCount() = 2` with chunk 0 holding 1024 rows and
chunk 1 holding 476 rows, for a total count of 1500. -/
theorem append_driver_chunks :
    (∀ (c : CollectionC) (input : DataChunkC) (c' : CollectionC),
        (∀ ch ∈ chunkCountsOf c, ch ≤ STANDARD_VECTOR_SIZE) →
        appendE c input = Except.ok c' →
        ∀ ch ∈ chunkCountsOf c', ch ≤ STANDARD_VECTOR_SIZE) ∧
    (∃ c', appendE (initCollection 0 [LType.tint64])
          { types := [LType.tint64], size := 1500 } = Except.ok c' ∧
        chunkCountC c' = 2 ∧ chunkCountsOf c' = [1024, 476] ∧ c'.count = 1500) := by
  constructor
  · intro c input c' hbound happ
    have hfin : c.finished_append = false := by
      by_contra hf
      have hf' : c.finished_append = true := by simpa using hf
      unfold appendE initializeAppend at happ
      rw [hf'] at happ
      simp [Bind.bind, Except.bind] at happ
    obtain ⟨c1, hok, _, _, _, _, _, hchunks1⟩ := initializeAppend_spec c hfin
    have happ1 : appendStateE c1 input = Except.ok c' := by
      unfold appendE at happ
      rw [hok] at happ
      simpa [Bind.bind, Except.bind] using happ
    have hbound1 : ∀ ch ∈ chunkCountsOf c1, ch ≤ STANDARD_VECTOR_SIZE := by
      intro ch hch
      rcases hchunks1 with heq | heq
      · exact hbound ch (heq ▸ hch)
      · rw [heq] at hch
        rcases List.mem_append.mp hch with hch' | hch'
        · exact hbound ch hch'
        · have : ch = 0 := by simpa using hch'
          omega
    obtain ⟨seg, _, _, hlast, _, rfl⟩ := appendStateE_ok_iff happ1
    intro ch hch
    rw [chunkCountsOf_appendCore] at hch
    rcases List.mem_append.mp hch with hch' | hch'
    · obtain ⟨s, hs, hins⟩ := List.mem_flatten.mp hch'
      obtain ⟨seg', hseg', rfl⟩ := List.mem_map.mp hs
      refine hbound1 ch (List.mem_flatten.mpr ⟨seg'.chunk_data, ?_, hins⟩)
      exact List.mem_map.mpr ⟨seg', List.dropLast_subset _ hseg', rfl⟩
    · refine appendChunksLoop_bound _ _ _ ?_ ch hch'
      intro z hz
      refine hbound1 z (List.mem_flatten.mpr ⟨seg.chunk_data, ?_, hz⟩)
      exact List.mem_map.mpr ⟨seg, mem_of_getLast?_eq hlast, rfl⟩
  · exact ⟨_, rfl, rfl, rfl, rfl⟩

/-- Witness for `append_driver_chunks`: the bound-preservation conjunct
applied to the 1500-row append onto the empty `int64` collection. -/
theorem append_driver_chunks_witness :
    (∀ ch ∈ chunkCountsOf emptyI64, ch ≤ STANDARD_VECTOR_SIZE) ∧
    (∀ ch ∈ chunkCountsOf (appendD emptyI64 1500), ch ≤ STANDARD_VECTOR_SIZE) := by
  refine ⟨by decide, ?_⟩
  exact append_driver_chunks.1 emptyI64 (chunkI64 1500) (appendD emptyI64 1500) (by decide) rfl

/-!  ### Scan state machine lemmas (C8)  -/

theorem scanWhile_term {segs : Segs} {s : ScanState} (h : ¬ s.segment_index < segs.length) :
    scanWhile segs s = (s, false) := by
  rw [scanWhile.eq_def, dif_neg h]

theorem scanWhile_found {segs : Segs} {s : ScanState} (h : s.segment_index < segs.length)
    (hj : s.chunk_index < (segChunks segs s.segment_index).length) :
    scanWhile segs s = (s, true) := by
  rw [scanWhile.eq_def, dif_pos h, if_neg (by omega)]

theorem scanWhile_adv {segs : Segs} {s : ScanState} (h : s.segment_index < segs.length)
    (hj : (segChunks segs s.segment_index).length ≤ s.chunk_index) :
    scanWhile segs s = scanWhile segs
      { s with chunk_index := 0, segment_index := s.segment_index + 1, handles := [] } := by
  conv_lhs => rw [scanWhile.eq_def]
  rw [dif_pos h, if_pos hj]

theorem nextScanIndex_term {segs : Segs} {s : ScanState}
    (h : ¬ s.segment_index < segs.length) :
    nextScanIndex segs s = ({ s with current_row_index := s.next_row_index }, none) := by
  simp only [nextScanIndex]
  rw [scanWhile_term (s := { s with current_row_index := s.next_row_index }) h]

theorem nextScanIndex_found {segs : Segs} {s : ScanState}
    (h : s.segment_index < segs.length)
    (hj : s.chunk_index < (segChunks segs s.segment_index).length) :
    nextScanIndex segs s =
      ({ s with current_row_index := s.next_row_index,
                next_row_index :=
                  s.next_row_index + (segChunks segs s.segment_index).getD s.chunk_index 0,
                chunk_index := s.chunk_index + 1 },
       some (s.segment_index, s.chunk_index, s.next_row_index)) := by
  simp only [nextScanIndex]
  rw [scanWhile_found (s := { s with current_row_index := s.next_row_index }) h hj]

theorem nextScanIndex_adv {segs : Segs} {s : ScanState}
    (h : s.segment_index < segs.length)
    (hj : (segChunks segs s.segment_index).length ≤ s.chunk_index) :
    nextScanIndex segs s = nextScanIndex segs
      { s with chunk_index := 0, segment_index := s.segment_index + 1,
               current_row_index := s.next_row_index, handles := [] } := by
  simp only [nextScanIndex]
  rw [scanWhile_adv (s := { s with current_row_index := s.next_row_index }) h hj]

theorem scanYields_eq (segs : Segs) (i j base : Nat) :
    ∀ (cr : Nat) (hh : List Nat) (fuel : Nat),
      scanYields segs ⟨j, i, cr, base, hh⟩ fuel = (lexEnumFrom segs i j base).take fuel := by
  induction i, j, base using lexEnumFrom.induct segs with
  | case1 i j base h hj ih =>
    intro cr hh fuel
    have hlex : lexEnumFrom segs i j base =
        (i, j, base) :: lexEnumFrom segs i (j + 1) (base + (segChunks segs i).getD j 0) := by
      conv_lhs => rw [lexEnumFrom.eq_def]
      rw [dif_pos h, dif_pos hj]
    cases fuel with
    | zero => simp [scanYields]
    | succ fuel =>
      rw [scanYields, nextScanIndex_found h hj]
      simp only []
      rw [hlex, List.take_succ_cons]
      exact congrArg _ (ih base hh fuel)
  | case2 i j base h hj ih =>
    intro cr hh fuel
    have hj' : (segChunks segs i).length ≤ j := by omega
    have hlex : lexEnumFrom segs i j base = lexEnumFrom segs (i + 1) 0 base := by
      conv_lhs => rw [lexEnumFrom.eq_def]
      rw [dif_pos h, dif_neg hj]
    cases fuel with
    | zero => simp [scanYields]
    | succ fuel =>
      have key : scanYields segs ⟨j, i, cr, base, hh⟩ (fuel + 1) =
          scanYields segs ⟨0, i + 1, base, base, []⟩ (fuel + 1) := by
        rw [scanYields, scanYields, nextScanIndex_adv h hj']
      rw [key, ih base [] (fuel + 1), hlex]
  | case3 i j base h =>
    intro cr hh fuel
    have hlex : lexEnumFrom segs i j base = [] := by
      rw [lexEnumFrom.eq_def, dif_neg h]
    cases fuel with
    | zero => simp [scanYields]
    | succ fuel =>
      rw [scanYields, nextScanIndex_term h]
      simp [hlex]

/-- The row index published together with the pair `(i, j)` under a correct
scan: the total count of all chunks lexicographically before chunk `j` of
segment `i`. -/
def rowsBefore (segs : Segs) (i j : Nat) : Nat :=
  ((segs.take i).map List.sum).sum + ((segChunks segs i).take j).sum

theorem sum_take_succ_getD {l : List Nat} {j : Nat} (h : j < l.length) :
    (l.take (j + 1)).sum = (l.take j).sum + l.getD j 0 := by
  rw [List.take_succ, List.sum_append]
  have hx : l[j]? = some l[j] := List.getElem?_eq_getElem h
  simp [hx, List.getD]

theorem rowsBefore_succ {segs : Segs} {i j : Nat} (hj : j < (segChunks segs i).length) :
    rowsBefore segs i (j + 1) = rowsBefore segs i j + (segChunks segs i).getD j 0 := by
  unfold rowsBefore
  rw [sum_take_succ_getD hj]
  omega

theorem rowsBefore_advance {segs : Segs} {i j : Nat} (h : i < segs.length)
    (hj : (segChunks segs i).length ≤ j) :
    rowsBefore segs i j = rowsBefore segs (i + 1) 0 := by
  unfold rowsBefore
  rw [List.take_of_length_le hj]
  have hlen : i < (segs.map List.sum).length := by simpa using h
  have : ((segs.take (i + 1)).map List.sum).sum =
      ((segs.take i).map List.sum).sum + (segs.map List.sum).getD i 0 := by
    rw [List.map_take, List.map_take, sum_take_succ_getD hlen]
  rw [this]
  have : (segs.map List.sum).getD i 0 = (segChunks segs i).sum := by
    simp only [segChunks, List.getD_map]
    cases hx : segs[i]? <;> simp [hx, List.getD]
  rw [this]
  simp

theorem lexEnumFrom_rowIndex (segs : Segs) (i j base : Nat) :
    base = rowsBefore segs i j →
      ∀ t ∈ lexEnumFrom segs i j base,
        t.2.2 = rowsBefore segs t.1 t.2.1 ∧ t.1 < segs.length ∧
          t.2.1 < (segChunks segs t.1).length := by
  induction i, j, base using lexEnumFrom.induct segs with
  | case1 i j base h hj ih =>
    intro hbase t ht
    rw [lexEnumFrom.eq_def, dif_pos h, dif_pos hj] at ht
    rcases List.mem_cons.mp ht with rfl | ht'
    · exact ⟨hbase, h, hj⟩
    · exact ih (by rw [hbase, rowsBefore_succ hj]) t ht'
  | case2 i j base h hj ih =>
    intro hbase t ht
    rw [lexEnumFrom.eq_def, dif_pos h, dif_neg hj] at ht
    exact ih (by rw [hbase, rowsBefore_advance h (by omega)]) t ht
  | case3 i j base h =>
    intro hbase t ht
    rw [lexEnumFrom.eq_def, dif_neg h] at ht
    simp at ht

theorem scanWhile_handles_nil (segs : Segs) (s : ScanState) (hs : s.handles = []) :
    (scanWhile segs s).1.handles = [] := by
  by_cases h : s.segment_index < segs.length
  · by_cases hj : (segChunks segs s.segment_index).length ≤ s.chunk_index
    · rw [scanWhile_adv h hj]
      exact scanWhile_handles_nil segs _ rfl
    · rw [scanWhile_found h (by omega)]
      exact hs
  · rw [scanWhile_term h]
    exact hs
termination_by segs.length - s.segment_index
decreasing_by simp; omega

theorem scanWhile_segment_or_handles (segs : Segs) (s : ScanState) :
    (scanWhile segs s).1.segment_index = s.segment_index ∨
      (scanWhile segs s).1.handles = [] := by
  by_cases h : s.segment_index < segs.length
  · by_cases hj : (segChunks segs s.segment_index).length ≤ s.chunk_index
    · right
      rw [scanWhile_adv h hj]
      exact scanWhile_handles_nil segs _ rfl
    · left
      rw [scanWhile_found h (by omega)]
  · left
    rw [scanWhile_term h]

theorem nextScanIndex_segment_or_handles (segs : Segs) (s : ScanState) :
    (nextScanIndex segs s).1.segment_index = s.segment_index ∨
      (nextScanIndex segs s).1.handles = [] := by
  have hsw := scanWhile_segment_or_handles segs { s with current_row_index := s.next_row_index }
  simp only [nextScanIndex]
  rcases h : scanWhile segs { s with current_row_index := s.next_row_index } with ⟨s1, b⟩
  rw [h] at hsw
  cases b
  · simpa using hsw
  · simpa using hsw

/-- C8: starting from the `InitializeScan` state, `NextScanIndex` yields every
`(segment_index, chunk_index)` pair of the collection exactly once in
lexicographic order — the yield sequence equals the lexicographic enumeration
`lexEnum` — returning false exactly when all chunks have been yielded (with
fuel for one extra call, the yield list is the full enumeration, so the call
after the last chunk reported false); every published row index equals the
total count of the chunks yielded before it; and whenever a call advances the
segment index the pin cache is left cleared. -/
theorem next_scan_index_enumerates (segs : Segs) :
    scanYields segs initScan ((lexEnum segs).length + 1) = lexEnum segs ∧
    (∀ t ∈ lexEnum segs, t.2.2 = rowsBefore segs t.1 t.2.1 ∧ t.1 < segs.length ∧
        t.2.1 < (segChunks segs t.1).length) ∧
    (∀ s : ScanState, (nextScanIndex segs s).1.segment_index = s.segment_index ∨
        (nextScanIndex segs s).1.handles = []) := by
  refine ⟨?_, ?_, nextScanIndex_segment_or_handles segs⟩
  · have h := scanYields_eq segs 0 0 0 0 [] ((lexEnum segs).length + 1)
    rw [show (⟨0, 0, 0, 0, []⟩ : ScanState) = initScan from rfl] at h
    rw [h]
    exact List.take_of_length_le (by simp [lexEnum])
  · have h0 : (0 : Nat) = rowsBefore segs 0 0 := by simp [rowsBefore]
    exact lexEnumFrom_rowIndex segs 0 0 0 h0

/-- Witness for `next_scan_index_enumerates` at the two-segment collection
with chunk counts `[[2, 3], [5]]`: the scan yields
`(0,0,0), (0,1,2), (1,0,5)` and then stops; the second triple's row index 2
equals the count of the single chunk before it. -/
theorem next_scan_index_enumerates_witness :
    scanYields [[2, 3], [5]] initScan ((lexEnum [[2, 3], [5]]).length + 1) =
      lexEnum [[2, 3], [5]] ∧
    ((0, 1, 2) ∈ lexEnum [[2, 3], [5]] ∧
      ((0, 1, 2) : Nat × Nat × Nat).2.2 = rowsBefore [[2, 3], [5]] 0 1) := by
  have hmem : ((0, 1, 2) : Nat × Nat × Nat) ∈ lexEnum [[2, 3], [5]] := by
    simp [lexEnum, lexEnumFrom, segChunks]
  refine ⟨(next_scan_index_enumerates [[2, 3], [5]]).1, hmem, ?_⟩
  exact ((next_scan_index_enumerates [[2, 3], [5]]).2.1 (0, 1, 2) hmem).1

/-- C10: the copy constructor yields a collection sharing the source's
allocator and schema with zero count and no segments, leaves the source's
count and segments unchanged, and marks the source `finished_append`. -/
theorem copy_constructor_spec (other : CollectionC) (h : other.types ≠ []) :
    ∃ p, copyConstructE other = Except.ok p ∧
      p.1.alloc = other.alloc ∧ p.1.types = other.types ∧
      p.1.count = 0 ∧ p.1.segments = [] ∧ p.1.finished_append = false ∧
      p.2.count = other.count ∧ p.2.segments = other.segments ∧
      p.2.types = other.types ∧ p.2.finished_append = true := by
  unfold copyConstructE
  have hemp : other.types.isEmpty = false := by simpa [List.isEmpty_iff] using h
  rw [hemp]
  exact ⟨(initCollection other.alloc other.types, { other with finished_append := true }),
    by simp, rfl, rfl, rfl, rfl, rfl, rfl, rfl, rfl, rfl⟩

/-- Witness for `copy_constructor_spec` at the 2-row `int64` collection. -/
theorem copy_constructor_spec_witness :
    (collI64 [2]).types ≠ [] ∧
    ∃ p, copyConstructE (collI64 [2]) = Except.ok p ∧
      p.1.alloc = (collI64 [2]).alloc ∧ p.1.types = (collI64 [2]).types ∧
      p.1.count = 0 ∧ p.1.segments = [] ∧ p.1.finished_append = false ∧
      p.2.count = (collI64 [2]).count ∧ p.2.segments = (collI64 [2]).segments ∧
      p.2.types = (collI64 [2]).types ∧ p.2.finished_append = true :=
  ⟨by decide, copy_constructor_spec (collI64 [2]) (by decide)⟩

/-- C7: for any appended column window (the append driver bounds every window
by the remaining capacity of the current descriptor), the validity bitmap is
set all-valid the first time the descriptor is written (`count == 0`) and bits
are flipped to invalid only for rows whose source value is null: the bit at
output position `count + i` equals the source row's validity, bits below
`count` are untouched, bits from `count + n` up to `STANDARD_VECTOR_SIZE`
remain valid, and the count advances by `n`.  The standalone
`ColumnDataCopyValidity` behaves the same way on a fresh target
(`target_offset == 0`): position `i` receives the source row's validity and
the remaining initialized positions stay valid. -/
theorem validity_copy_correct {V : Type} [Inhabited V] (op : V → V) (u : UVF V)
    (t : VTable V) (idx offset n : Nat) (hidx : idx < t.length) (hn : n ≠ 0)
    (hfit : (getVD t idx).count + n ≤ STANDARD_VECTOR_SIZE)
    (hinv : (getVD t idx).count ≠ 0 →
      ∀ s, (getVD t idx).count ≤ s → s < STANDARD_VECTOR_SIZE →
        (getVD t idx).validity s = true)
    (hall : u.allV = true → ∀ k, u.valid k = true) :
    (∀ i, i < n →
      (getVD (templatedCopy op u t idx offset n) idx).validity ((getVD t idx).count + i) =
        u.valid (u.sel (offset + i))) ∧
    (∀ s, s < (getVD t idx).count →
      (getVD (templatedCopy op u t idx offset n) idx).validity s =
        (getVD t idx).validity s) ∧
    (∀ s, (getVD t idx).count + n ≤ s → s < STANDARD_VECTOR_SIZE →
      (getVD (templatedCopy op u t idx offset n) idx).validity s = true) ∧
    (getVD (templatedCopy op u t idx offset n) idx).count = (getVD t idx).count + n ∧
    (∀ (tv : Nat → Bool) (srcOff cnt : Nat), cnt ≤ STANDARD_VECTOR_SIZE →
      (∀ i, i < cnt →
        columnDataCopyValidity u tv srcOff 0 cnt i = u.valid (u.sel (srcOff + i))) ∧
      (∀ s, cnt ≤ s → s < STANDARD_VECTOR_SIZE →
        columnDataCopyValidity u tv srcOff 0 cnt s = true)) := by
  have hres : getVD (templatedCopy op u t idx offset n) idx =
      { getVD t idx with
        data := (innerFor op u (getVD t idx).data (windowInitValidity (getVD t idx))
            (getVD t idx).count offset n).1,
        validity := (innerFor op u (getVD t idx).data (windowInitValidity (getVD t idx))
            (getVD t idx).count offset n).2,
        count := (getVD t idx).count + n } := by
    rw [templatedCopy_window_eq op u t idx offset n hn hfit, getVD_setVD _ _ _ hidx]
  have hinit : ∀ s, (getVD t idx).count ≤ s → s < STANDARD_VECTOR_SIZE →
      windowInitValidity (getVD t idx) s = true := by
    intro s hs1 hs2
    unfold windowInitValidity
    by_cases hc : (getVD t idx).count = 0
    · rw [if_pos hc]
      simp [setAllValid, hs2]
    · rw [if_neg hc]
      exact hinv hc s hs1 hs2
  refine ⟨?_, ?_, ?_, by rw [hres], ?_⟩
  · intro i hi
    rw [hres]
    simp only []
    rw [(innerFor_write op u (getVD t idx).data (windowInitValidity (getVD t idx))
      (getVD t idx).count offset n i hi).2]
    by_cases hv : u.valid (u.sel (offset + i)) = true
    · rw [if_pos hv, hv]
      exact hinit _ (by omega) (by omega)
    · rw [if_neg hv]
      have hv' : u.valid (u.sel (offset + i)) = false := by simpa using hv
      rw [hv']
  · intro s hs
    rw [hres]
    simp only []
    rw [(innerFor_untouched op u (getVD t idx).data (windowInitValidity (getVD t idx))
      (getVD t idx).count offset n s (fun i hi => by omega)).2]
    unfold windowInitValidity
    rw [if_neg (by omega)]
  · intro s hs1 hs2
    rw [hres]
    simp only []
    rw [(innerFor_untouched op u (getVD t idx).data (windowInitValidity (getVD t idx))
      (getVD t idx).count offset n s (fun i hi => by omega)).2]
    exact hinit s (by omega) hs2
  · intro tv srcOff cnt hcnt
    constructor
    · intro i hi
      simp only [columnDataCopyValidity]
      rw [if_pos trivial]
      by_cases ha : u.allV = true
      · rw [if_pos ha, hall ha (u.sel (srcOff + i))]
        simp only [setAllValid]
        rw [if_pos (by omega)]
      · rw [if_neg ha]
        have hw := cdcValidityLoop_write u (setAllValid tv) srcOff 0 cnt i hi
        simp only [Nat.zero_add] at hw
        rw [hw]
        by_cases hv : u.valid (u.sel (srcOff + i)) = true
        · rw [if_pos hv, hv]
          simp only [setAllValid]
          rw [if_pos (by omega)]
        · rw [if_neg hv]
          have hv' : u.valid (u.sel (srcOff + i)) = false := by simpa using hv
          rw [hv']
    · intro s hs1 hs2
      simp only [columnDataCopyValidity]
      rw [if_pos trivial]
      by_cases ha : u.allV = true
      · rw [if_pos ha]
        simp only [setAllValid]
        rw [if_pos hs2]
      · rw [if_neg ha]
        rw [cdcValidityLoop_untouched u (setAllValid tv) srcOff 0 cnt s (fun i hi => by omega)]
        simp only [setAllValid]
        rw [if_pos hs2]

/-- Fresh `Int` descriptor used by copy-engine witnesses. -/
def vdEx : VectorMetaData Int :=
  { count := 0, next_data := none, child_index := none,
    validity := fun _ => false, data := fun _ => 0 }

/-- Concrete source view: identity selection, row 1 null, integer data. -/
def uEx : UVF Int :=
  { sel := fun i => i, valid := fun i => decide (i ≠ 1), allV := false,
    data := fun i => (i : Int) }

/-- Witness for `validity_copy_correct`: copying 3 rows (row 1 null) into a
fresh descriptor puts a null exactly at output position 1, keeps position 2
valid, leaves the rest of the initialized bitmap valid, and advances the
count to 3. -/
theorem validity_copy_correct_witness :
    ((0 : Nat) < ([vdEx] : VTable Int).length ∧ (3 : Nat) ≠ 0 ∧
      (getVD ([vdEx] : VTable Int) 0).count + 3 ≤ STANDARD_VECTOR_SIZE) ∧
    (getVD (templatedCopy (fun v : Int => v) uEx [vdEx] 0 0 3) 0).validity
        ((getVD ([vdEx] : VTable Int) 0).count + 1) = uEx.valid (uEx.sel (0 + 1)) ∧
    uEx.valid (uEx.sel (0 + 1)) = false ∧
    (getVD (templatedCopy (fun v : Int => v) uEx [vdEx] 0 0 3) 0).validity
        ((getVD ([vdEx] : VTable Int) 0).count + 2) = uEx.valid (uEx.sel (0 + 2)) ∧
    uEx.valid (uEx.sel (0 + 2)) = true ∧
    (getVD (templatedCopy (fun v : Int => v) uEx [vdEx] 0 0 3) 0).count =
      (getVD ([vdEx] : VTable Int) 0).count + 3 := by
  have h := validity_copy_correct (fun v : Int => v) uEx [vdEx] 0 0 3 (by decide) (by decide)
    (by decide) (fun hc => absurd rfl hc) (fun ha => absurd ha (by decide))
  exact ⟨⟨by decide, by decide, by decide⟩, h.1 1 (by decide), by decide,
    h.1 2 (by decide), by decide, h.2.2.2.1⟩

/-- C9: within any appended window, a stored string value is the input itself
when the input `string_t` is inlined, and otherwise the `string_t` returned by
the segment heap's `AddBlob`; in both cases the stored value is byte-equal to
the appended input. -/
theorem string_copy_byte_equal (u : UVF StrT) (t : VTable StrT) (idx offset n : Nat)
    (hidx : idx < t.length) (hn : n ≠ 0)
    (hfit : (getVD t idx).count + n ≤ STANDARD_VECTOR_SIZE) :
    ∀ i, i < n → u.valid (u.sel (offset + i)) = true →
      ((getVD (templatedCopy stringValueCopyOp u t idx offset n) idx).data
          ((getVD t idx).count + i) =
        (if (u.data (u.sel (offset + i))).inlined = true then u.data (u.sel (offset + i))
         else heapAddBlob (u.data (u.sel (offset + i))))) ∧
      ((getVD (templatedCopy stringValueCopyOp u t idx offset n) idx).data
          ((getVD t idx).count + i)).bytes = (u.data (u.sel (offset + i))).bytes := by
  intro i hi hv
  have hd := templatedCopy_data_written stringValueCopyOp u t idx offset n hidx hn hfit i hi hv
  refine ⟨by rw [hd]; rfl, ?_⟩
  rw [hd]
  unfold stringValueCopyOp
  by_cases hin : (u.data (u.sel (offset + i))).inlined = true
  · rw [if_pos hin]
  · rw [if_neg hin]
    rfl

/-- A short (inlined) and a long (heap-resident) string for the C9 witness. -/
def strShort : StrT := { bytes := [65, 66], heapResident := false }

/-- A 13-byte string: longer than the 12-byte inline capacity. -/
def strLong : StrT :=
  { bytes := [65, 66, 67, 68, 69, 70, 71, 72, 73, 74, 75, 76, 77], heapResident := false }

/-- Fresh string descriptor for the C9 witness. -/
def vdStrEx : VectorMetaData StrT :=
  { count := 0, next_data := none, child_index := none,
    validity := fun _ => false, data := fun _ => default }

/-- String source view: row 0 long, row 1 short, all valid. -/
def uStrEx : UVF StrT :=
  { sel := fun i => i, valid := fun _ => true, allV := true,
    data := fun i => if i = 0 then strLong else strShort }

/-- Witness for `string_copy_byte_equal`: the long string is stored as the
heap copy, the short one by value, and both stored values are byte-equal to
the inputs. -/
theorem string_copy_byte_equal_witness :
    ((0 : Nat) < ([vdStrEx] : VTable StrT).length ∧ (2 : Nat) ≠ 0 ∧
      (getVD ([vdStrEx] : VTable StrT) 0).count + 2 ≤ STANDARD_VECTOR_SIZE ∧
      uStrEx.valid (uStrEx.sel (0 + 0)) = true ∧ uStrEx.valid (uStrEx.sel (0 + 1)) = true) ∧
    ((getVD (templatedCopy stringValueCopyOp uStrEx [vdStrEx] 0 0 2) 0).data
        ((getVD ([vdStrEx] : VTable StrT) 0).count + 0)).bytes =
      (uStrEx.data (uStrEx.sel (0 + 0))).bytes ∧
    ((getVD (templatedCopy stringValueCopyOp uStrEx [vdStrEx] 0 0 2) 0).data
        ((getVD ([vdStrEx] : VTable StrT) 0).count + 1)).bytes =
      (uStrEx.data (uStrEx.sel (0 + 1))).bytes := by
  have h0 := string_copy_byte_equal uStrEx [vdStrEx] 0 0 2 (by decide) (by decide) (by decide)
    0 (by decide) (by decide)
  have h1 := string_copy_byte_equal uStrEx [vdStrEx] 0 0 2 (by decide) (by decide) (by decide)
    1 (by decide) (by decide)
  exact ⟨⟨by decide, by decide, by decide, by decide, by decide⟩, h0.2, h1.2⟩

/-- C6: `ColumnDataCopy<list_entry_t>` appends the entire child vector into
the child descriptor chain first (first conjunct: the resulting child table is
exactly the recursive child append applied to the pre-append child table), and
every stored `list_entry_t` keeps its `length` while its `offset` is shifted
by exactly the total count of the child descriptor chain as it was before this
append (`current_list_size`, recorded as `meta_data.child_list_size`) — so
stored offsets are measured relative to the head of the child chain. -/
theorem list_copy_offset_shift {W : Type} [Inhabited W] (childOp : W → W) (childU : UVF W)
    (childLen : Nat) (parentU : UVF ListEntryT) (st : ListCopyState W)
    (pidx offset n : Nat) (hp : pidx < st.parentT.length) (hn : n ≠ 0)
    (hfit : (getVD st.parentT pidx).count + n ≤ STANDARD_VECTOR_SIZE) :
    ((columnDataCopyList childOp childU childLen parentU st pidx offset n).childT =
      templatedCopy childOp childU (ensureChildAllocated st pidx).1.childT
        (ensureChildAllocated st pidx).2 0 childLen) ∧
    (∀ i, i < n → parentU.valid (parentU.sel (offset + i)) = true →
      (getVD (columnDataCopyList childOp childU childLen parentU st pidx offset n).parentT
          pidx).data ((getVD st.parentT pidx).count + i) =
        { offset := (parentU.data (parentU.sel (offset + i))).offset +
            chainTotal (ensureChildAllocated st pidx).1.childT
              (ensureChildAllocated st pidx).2,
          length := (parentU.data (parentU.sel (offset + i))).length }) := by
  obtain ⟨hlen, hcount, hdata, hval⟩ := ensureChild_parent_preserved st pidx hp
  refine ⟨rfl, ?_⟩
  intro i hi hv
  have hp1 : pidx < (ensureChildAllocated st pidx).1.parentT.length := by omega
  have hfit1 : (getVD (ensureChildAllocated st pidx).1.parentT pidx).count + n ≤
      STANDARD_VECTOR_SIZE := by rw [hcount]; exact hfit
  have hmain : (columnDataCopyList childOp childU childLen parentU st pidx offset n).parentT =
      templatedCopy
        (listValueCopyOp (chainTotal (ensureChildAllocated st pidx).1.childT
          (ensureChildAllocated st pidx).2))
        parentU (ensureChildAllocated st pidx).1.parentT pidx offset n := rfl
  rw [hmain, ← hcount]
  exact templatedCopy_data_written _ parentU _ pidx offset n hp1 hn hfit1 i hi hv

/-- Fresh parent descriptor holding `list_entry_t`s for the C6 witness. -/
def vdListEx : VectorMetaData ListEntryT :=
  { count := 0, next_data := none, child_index := none,
    validity := fun _ => false, data := fun _ => default }

/-- List-copy state before the first append: one parent descriptor, no child
descriptor allocated yet. -/
def lcsEx : ListCopyState Int :=
  { parentT := [vdListEx], childT := [], childHeads := [] }

/-- Child source view for the C6 witness. -/
def childUEx : UVF Int :=
  { sel := fun i => i, valid := fun _ => true, allV := true, data := fun i => (i : Int) }

/-- Parent list-entry source view for the C6 witness: row `i` holds the entry
`(offset := 2 * i, length := 2)`. -/
def parentUEx : UVF ListEntryT :=
  { sel := fun i => i, valid := fun _ => true, allV := true,
    data := fun i => { offset := 2 * i, length := 2 } }

/-- Witness for `list_copy_offset_shift`: with a fresh (empty) child chain the
shift is the chain's pre-append total, and the stored entry at position 1
keeps its length. -/
theorem list_copy_offset_shift_witness :
    ((0 : Nat) < lcsEx.parentT.length ∧ (3 : Nat) ≠ 0 ∧
      (getVD lcsEx.parentT 0).count + 3 ≤ STANDARD_VECTOR_SIZE ∧
      parentUEx.valid (parentUEx.sel (0 + 1)) = true) ∧
    (getVD (columnDataCopyList (fun w : Int => w) childUEx 5 parentUEx lcsEx 0 0 3).parentT
        0).data ((getVD lcsEx.parentT 0).count + 1) =
      { offset := (parentUEx.data (parentUEx.sel (0 + 1))).offset +
          chainTotal (ensureChildAllocated lcsEx 0).1.childT (ensureChildAllocated lcsEx 0).2,
        length := (parentUEx.data (parentUEx.sel (0 + 1))).length } := by
  refine ⟨⟨by decide, by decide, by decide, by decide⟩, ?_⟩
  exact (list_copy_offset_shift (fun w : Int => w) childUEx 5 parentUEx lcsEx 0 0 3
    (by decide) (by decide) (by decide)).2 1 (by decide) (by decide)

end CDC
